import Mathlib

/-!
Verification of the sequential sorted linked-list set `List_set<T>`
(src/old/cpp_list_sets/src/List_set.h).

The C++ structure is a singly linked chain of nodes owned through
`std::unique_ptr` (`link_t next`): a head sentinel, then the interior
nodes holding the elements, then a tail sentinel whose `next` is null.
`is_last()` (declared in `Node_base.h`, outside src) holds exactly for
the tail sentinel, the unique node with a null `next`.

Because each node is uniquely owned by its predecessor, the chain is a
finite, acyclic sequence with all reachable nodes distinct; we embed it
as the inductive type `Chain`, where the constructor `tl` is the tail
sentinel (null `next`; its default-initialised element is never read by
any operation, so `tl` carries no element) and `node e next` is any
other node, whose `next` link is always non-null.
-/

set_option linter.unusedSectionVars false

namespace ListSets

/-- A node chain. `tl` is the tail sentinel (its `next` is the null
pointer, so `is_last()` holds of it); `node element next` is a node with
a non-null successor link (`T element; link_t next;` in the source). -/
inductive Chain (α : Type) where
  | tl : Chain α
  | node (element : α) (next : Chain α) : Chain α
deriving DecidableEq

variable {α : Type} [LinearOrder α]

/-- Modelled from the spec: `is_last()` comes from `Node_base.h`, which is
not under src; the spec says the tail sentinel is the unique node for
which "is last" holds, and the tail is the node whose `next` is null. -/
def Chain.is_last : Chain α → Bool
  | Chain.tl => true
  | Chain.node _ _ => false

/-- Elements stored in the nodes of a chain, in link order (the tail
sentinel stores no readable element). -/
def Chain.elems : Chain α → List α
  | Chain.tl => []
  | Chain.node e n => e :: n.elems

/-- `List_set::find_predecessor`: starting from the given node (`ptr`),
walk `for (ptr = &*link_; !ptr->next->is_last(); ptr = &*ptr->next)`
breaking as soon as `key <= ptr->next->element`, and return `*ptr`.
The `tl` case is unreachable from the operations (the head sentinel is
always a proper node). -/
def find_predecessor : Chain α → α → Chain α
  | Chain.tl, _ => Chain.tl
  | Chain.node e Chain.tl, _ => Chain.node e Chain.tl
  | Chain.node e (Chain.node e2 n2), key =>
    if key ≤ e2 then Chain.node e (Chain.node e2 n2)
    else find_predecessor (Chain.node e2 n2) key

/-- Number of `ptr = &*ptr->next` advancement steps the loop of
`find_predecessor` performs before returning; used to express the
in-place splices of `insert`/`remove` functionally. -/
def find_predecessor_steps : Chain α → α → Nat
  | Chain.tl, _ => 0
  | Chain.node _ Chain.tl, _ => 0
  | Chain.node _ (Chain.node e2 n2), key =>
    if key ≤ e2 then 0 else find_predecessor_steps (Chain.node e2 n2) key + 1

/-- Advance `i` links from a node (`ptr = &*ptr->next`, `i` times). -/
def advance : Chain α → Nat → Chain α
  | c, 0 => c
  | Chain.tl, _ + 1 => Chain.tl
  | Chain.node _ n, i + 1 => advance n i

/-- `List_set::matches(prev, key)`:
`!prev.next->is_last() && prev.next->element == key`. The argument is
the predecessor node returned by `find_predecessor`, always a proper
node. -/
def matchesKey : Chain α → α → Bool
  | Chain.node _ (Chain.node e2 _), key => decide (e2 = key)
  | _, _ => false

/-- The splice of `List_set::insert` performed at the node `i` links
below the given one (the predecessor): `new_node->next = move(prev.next);
prev.next = move(new_node);`. Only reached with the predecessor present
(`i < c.elems.length`). -/
def insertAt : Chain α → Nat → α → Chain α
  | Chain.tl, _, _ => Chain.tl
  | Chain.node e n, 0, key => Chain.node e (Chain.node key n)
  | Chain.node e n, i + 1, key => Chain.node e (insertAt n i key)

/-- The unlink of `List_set::remove` performed at the node `i` links
below the given one (the predecessor):
`prev.next = move(prev.next->next);`. Only reached when `matches` held,
so the predecessor and its successor are proper nodes. -/
def removeAt : Chain α → Nat → Chain α
  | Chain.tl, _ => Chain.tl
  | Chain.node e Chain.tl, 0 => Chain.node e Chain.tl
  | Chain.node e (Chain.node _ n2), 0 => Chain.node e n2
  | Chain.node e n, i + 1 => Chain.node e (removeAt n i)

/-- The `List_set` state: the owning pointer `link_` to the head
sentinel. -/
structure List_set (α : Type) where
  link_ : Chain α

/-- The constructor `List_set()`: a head sentinel (default-initialised
element, never read) linked directly to the tail sentinel. -/
def List_set.new [Inhabited α] : List_set α :=
  ⟨Chain.node default Chain.tl⟩

/-- The abstract set contents: the elements of the interior nodes, in
chain order (both sentinels excluded). -/
def List_set.elements (s : List_set α) : List α :=
  match s.link_ with
  | Chain.tl => []
  | Chain.node _ n => n.elems

/-- `List_set::member(key)`:
`auto& prev = find_predecessor(key); return matches(prev, key);`. -/
def List_set.member (s : List_set α) (key : α) : Bool :=
  matchesKey (find_predecessor s.link_ key) key

/-- `List_set::insert(key)`: find the predecessor; if it `matches`,
return false without touching the list; otherwise splice a new node
holding `key` between the predecessor and its successor and return
true. Returns the boolean result paired with the post state. -/
def List_set.insert (s : List_set α) (key : α) : Bool × List_set α :=
  if matchesKey (find_predecessor s.link_ key) key then (false, s)
  else (true, ⟨insertAt s.link_ (find_predecessor_steps s.link_ key) key⟩)

/-- `List_set::remove(key)`: find the predecessor; if it does not
`matches`, return false without touching the list; otherwise unlink the
predecessor's successor (transferring that node's `next` to the
predecessor) and return true. Returns the boolean result paired with
the post state. -/
def List_set.remove (s : List_set α) (key : α) : Bool × List_set α :=
  if matchesKey (find_predecessor s.link_ key) key then
    (true, ⟨removeAt s.link_ (find_predecessor_steps s.link_ key)⟩)
  else (false, s)

/-- Well-formedness invariant of a `List_set` state: the head link is a
proper node (not the tail sentinel), and the interior elements are
strictly ascending in chain order. Acyclicity and distinctness of the
reachable nodes are structural in the embedding (each node is uniquely
owned by its predecessor), and distinctness of the elements follows
from strict ascent. -/
def WF (s : List_set α) : Prop :=
  s.link_.is_last = false ∧ List.Sorted (· < ·) s.elements

instance (s : List_set α) : Decidable (WF s) :=
  inferInstanceAs (Decidable (_ ∧ _))

/-! Helper lemmas relating the traversal to positions in the element
list. -/

/-- List-level version of the predecessor-search step count: the length
of the longest prefix of the interior elements lying strictly below
`key`. -/
def stepsIn : List α → α → Nat
  | [], _ => 0
  | x :: xs, key => if key ≤ x then 0 else stepsIn xs key + 1

/-- A concrete well-formed state used to witness the theorems below:
head sentinel, interior nodes 2 and 5, tail sentinel. -/
def sample : List_set Int :=
  ⟨Chain.node 0 (Chain.node 2 (Chain.node 5 Chain.tl))⟩

theorem find_predecessor_steps_eq (e : α) (n : Chain α) (key : α) :
    find_predecessor_steps (Chain.node e n) key = stepsIn n.elems key := by
  induction n generalizing e with
  | tl => rfl
  | node e2 n2 ih =>
    simp only [find_predecessor_steps, Chain.elems, stepsIn, ih e2]

theorem stepsIn_le (l : List α) (key : α) : stepsIn l key ≤ l.length := by
  induction l with
  | nil => simp [stepsIn]
  | cons x xs ih =>
    simp only [stepsIn, List.length_cons]
    split
    · omega
    · omega

theorem find_predecessor_eq_advance (c : Chain α) (key : α) :
    find_predecessor c key = advance c (find_predecessor_steps c key) := by
  induction c with
  | tl => rfl
  | node e n ih =>
    cases n with
    | tl => rfl
    | node e2 n2 =>
      by_cases h : key ≤ e2
      · simp [find_predecessor, find_predecessor_steps, h, advance]
      · simp [find_predecessor, find_predecessor_steps, h, advance, ih]

theorem elems_advance (c : Chain α) (i : Nat) :
    (advance c i).elems = c.elems.drop i := by
  induction i generalizing c with
  | zero => simp [advance]
  | succ j ih =>
    cases c with
    | tl => simp [advance, Chain.elems]
    | node e n => simp [advance, Chain.elems, ih]

theorem matchesKey_iff (c : Chain α) (key : α) :
    matchesKey c key = true ↔ c.elems[1]? = some key := by
  cases c with
  | tl => simp [matchesKey, Chain.elems]
  | node e n =>
    cases n with
    | tl => simp [matchesKey, Chain.elems]
    | node e2 n2 => simp [matchesKey, Chain.elems]

theorem matchesKey_find_predecessor (e : α) (n : Chain α) (key : α) :
    matchesKey (find_predecessor (Chain.node e n) key) key = true ↔
      n.elems[stepsIn n.elems key]? = some key := by
  rw [matchesKey_iff, find_predecessor_eq_advance, elems_advance,
    List.getElem?_drop, find_predecessor_steps_eq]
  simp [Chain.elems]

theorem getElem?_stepsIn_iff_mem (l : List α) (key : α)
    (hs : List.Sorted (· < ·) l) :
    l[stepsIn l key]? = some key ↔ key ∈ l := by
  induction l with
  | nil => simp [stepsIn]
  | cons x xs ih =>
    rw [List.sorted_cons] at hs
    obtain ⟨hx, hxs⟩ := hs
    by_cases h : key ≤ x
    · simp only [stepsIn, if_pos h, List.getElem?_cons_zero, Option.some.injEq,
        List.mem_cons]
      constructor
      · intro hxk; exact Or.inl hxk.symm
      · rintro (rfl | hmem)
        · rfl
        · exact absurd h (not_le.mpr (hx key hmem))
    · simp only [stepsIn, if_neg h, List.getElem?_cons_succ, List.mem_cons]
      rw [ih hxs]
      constructor
      · exact Or.inr
      · rintro (rfl | hmem)
        · exact absurd le_rfl h
        · exact hmem

theorem stepsIn_prefix_lt (l : List α) (key : α) :
    ∀ j, j < stepsIn l key → ∃ v, l[j]? = some v ∧ v < key := by
  induction l with
  | nil => intro j hj; simp [stepsIn] at hj
  | cons x xs ih =>
    intro j hj
    by_cases h : key ≤ x
    · rw [stepsIn, if_pos h] at hj; omega
    · rw [stepsIn, if_neg h] at hj
      cases j with
      | zero => exact ⟨x, by simp, lt_of_not_le h⟩
      | succ j2 =>
        simp only [List.getElem?_cons_succ]
        exact ih j2 (by omega)

theorem stepsIn_at_ge (l : List α) (key : α) :
    ∀ v, l[stepsIn l key]? = some v → key ≤ v := by
  induction l with
  | nil => intro v hv; simp at hv
  | cons x xs ih =>
    intro v hv
    by_cases h : key ≤ x
    · rw [stepsIn, if_pos h, List.getElem?_cons_zero] at hv
      cases hv; exact h
    · rw [stepsIn, if_neg h, List.getElem?_cons_succ] at hv
      exact ih v hv

/-! Splicing a key into, and unsplicing a node out of, a sorted element
list. -/

theorem mem_splice (l : List α) (i : Nat) (key x : α) :
    x ∈ l.take i ++ key :: l.drop i ↔ x = key ∨ x ∈ l := by
  nth_rewrite 3 [← List.take_append_drop i l]
  simp only [List.mem_append, List.mem_cons]
  tauto

theorem sorted_splice (l : List α) (key : α) (hs : List.Sorted (· < ·) l)
    (hk : key ∉ l) :
    List.Sorted (· < ·)
      (l.take (stepsIn l key) ++ key :: l.drop (stepsIn l key)) := by
  induction l with
  | nil => simp [stepsIn, List.sorted_singleton]
  | cons x xs ih =>
    rw [List.sorted_cons] at hs
    obtain ⟨hx, hxs⟩ := hs
    rw [List.mem_cons, not_or] at hk
    obtain ⟨hk1, hk2⟩ := hk
    by_cases h : key ≤ x
    · simp only [stepsIn, if_pos h, List.take_zero, List.drop_zero,
        List.nil_append]
      rw [List.sorted_cons]
      refine ⟨?_, List.sorted_cons.mpr ⟨hx, hxs⟩⟩
      intro b hb
      rcases List.mem_cons.mp hb with rfl | hbxs
      · exact lt_of_le_of_ne h hk1
      · exact lt_of_le_of_lt h (hx b hbxs)
    · simp only [stepsIn, if_neg h, List.take_succ_cons, List.drop_succ_cons,
        List.cons_append]
      rw [List.sorted_cons]
      refine ⟨?_, ih hxs hk2⟩
      intro b hb
      rw [mem_splice] at hb
      rcases hb with rfl | hbxs
      · exact lt_of_not_le h
      · exact hx b hbxs

theorem sorted_unsplice (l : List α) (i : Nat)
    (hs : List.Sorted (· < ·) l) :
    List.Sorted (· < ·) (l.take i ++ l.drop (i + 1)) := by
  have hsub : List.Sublist (l.take i ++ l.drop (i + 1)) l := by
    nth_rewrite 3 [← List.take_append_drop i l]
    refine List.Sublist.append_left ?_ (l.take i)
    rw [← List.drop_drop]
    exact List.drop_sublist 1 (l.drop i)
  exact List.Pairwise.sublist hsub hs

theorem mem_unsplice (l : List α) (key : α) (hs : List.Sorted (· < ·) l) :
    ∀ i x, l[i]? = some key →
      (x ∈ l.take i ++ l.drop (i + 1) ↔ x ∈ l ∧ x ≠ key) := by
  induction l with
  | nil => intro i x hi; simp at hi
  | cons y ys ih =>
    rw [List.sorted_cons] at hs
    obtain ⟨hy, hys⟩ := hs
    intro i x hi
    cases i with
    | zero =>
      rw [List.getElem?_cons_zero] at hi
      cases hi
      simp only [List.take_zero, List.drop_succ_cons, List.drop_zero,
        List.nil_append, List.mem_cons]
      constructor
      · intro hx
        exact ⟨Or.inr hx, ne_of_gt (hy x hx)⟩
      · rintro ⟨rfl | hx, hne⟩
        · exact absurd rfl hne
        · exact hx
    | succ i2 =>
      rw [List.getElem?_cons_succ] at hi
      have hkey : key ∈ ys := List.getElem?_mem hi
      have hyk : y ≠ key := ne_of_lt (hy key hkey)
      simp only [List.take_succ_cons, List.drop_succ_cons, List.cons_append,
        List.mem_cons]
      rw [ih hys i2 x hi]
      constructor
      · rintro (rfl | ⟨hx, hne⟩)
        · exact ⟨Or.inl rfl, hyk⟩
        · exact ⟨Or.inr hx, hne⟩
      · rintro ⟨rfl | hx, hne⟩
        · exact Or.inl rfl
        · exact Or.inr ⟨hx, hne⟩

/-! The chain surgeries of insert/remove, projected to element lists. -/

theorem insertAt_not_last (e : α) (n : Chain α) (i : Nat) (key : α) :
    (insertAt (Chain.node e n) i key).is_last = false := by
  cases i <;> rfl

theorem removeAt_not_last (e : α) (n : Chain α) (i : Nat) :
    (removeAt (Chain.node e n) i).is_last = false := by
  cases i <;> cases n <;> rfl

theorem elems_insertAt (c : Chain α) (i : Nat) (key : α)
    (h : i < c.elems.length) :
    (insertAt c i key).elems =
      c.elems.take (i + 1) ++ key :: c.elems.drop (i + 1) := by
  induction c generalizing i with
  | tl => simp [Chain.elems] at h
  | node e n ih =>
    cases i with
    | zero => rfl
    | succ j =>
      simp only [Chain.elems, List.length_cons] at h
      simp only [insertAt, Chain.elems, List.take_succ_cons,
        List.drop_succ_cons, List.cons_append]
      rw [ih j (by omega)]

theorem elems_removeAt (c : Chain α) (i : Nat)
    (h : i + 1 < c.elems.length) :
    (removeAt c i).elems =
      c.elems.take (i + 1) ++ c.elems.drop (i + 1 + 1) := by
  induction c generalizing i with
  | tl => simp [Chain.elems] at h
  | node e n ih =>
    cases i with
    | zero =>
      cases n with
      | tl => simp [Chain.elems] at h
      | node e2 n2 => rfl
    | succ j =>
      simp only [Chain.elems, List.length_cons] at h
      simp only [removeAt, Chain.elems, List.take_succ_cons,
        List.drop_succ_cons, List.cons_append]
      rw [ih j (by omega)]

theorem elements_insertAt (e : α) (n : Chain α) (i : Nat) (key : α)
    (h : i ≤ n.elems.length) :
    List_set.elements ⟨insertAt (Chain.node e n) i key⟩ =
      n.elems.take i ++ key :: n.elems.drop i := by
  have h2 : i < (Chain.node e n).elems.length := by
    simp only [Chain.elems, List.length_cons]; omega
  have h3 := elems_insertAt (Chain.node e n) i key h2
  cases hr : insertAt (Chain.node e n) i key with
  | tl =>
    have h4 := insertAt_not_last e n i key
    rw [hr] at h4
    simp [Chain.is_last] at h4
  | node e2 m =>
    rw [hr] at h3
    simp only [Chain.elems, List.take_succ_cons, List.drop_succ_cons,
      List.cons_append] at h3
    injection h3 with h4 h5

theorem elements_removeAt (e : α) (n : Chain α) (i : Nat)
    (h : i < n.elems.length) :
    List_set.elements ⟨removeAt (Chain.node e n) i⟩ =
      n.elems.take i ++ n.elems.drop (i + 1) := by
  have h2 : i + 1 < (Chain.node e n).elems.length := by
    simp only [Chain.elems, List.length_cons]; omega
  have h3 := elems_removeAt (Chain.node e n) i h2
  cases hr : removeAt (Chain.node e n) i with
  | tl =>
    have h4 := removeAt_not_last e n i
    rw [hr] at h4
    simp [Chain.is_last] at h4
  | node e2 m =>
    rw [hr] at h3
    simp only [Chain.elems, List.take_succ_cons, List.drop_succ_cons,
      List.cons_append] at h3
    injection h3 with h4 h5

/-! Helper lemmas on whole `List_set` states. -/

theorem WF_dest (s : List_set α) (h : WF s) :
    ∃ e n, s.link_ = Chain.node e n ∧ s.elements = n.elems ∧
      List.Sorted (· < ·) n.elems := by
  obtain ⟨h1, h2⟩ := h
  cases hc : s.link_ with
  | tl => rw [hc] at h1; simp [Chain.is_last] at h1
  | node e n =>
    have he : s.elements = n.elems := by simp [List_set.elements, hc]
    exact ⟨e, n, rfl, he, he ▸ h2⟩

theorem member_iff_mem (s : List_set α) (key : α) (h : WF s) :
    s.member key = true ↔ key ∈ s.elements := by
  obtain ⟨e, n, hc, he, hs⟩ := WF_dest s h
  rw [List_set.member, hc, he, matchesKey_find_predecessor,
    getElem?_stepsIn_iff_mem n.elems key hs]

theorem member_false_of_not_mem (s : List_set α) (key : α) (h : WF s)
    (hmem : key ∉ s.elements) : s.member key = false := by
  cases hb : s.member key with
  | false => rfl
  | true => exact absurd ((member_iff_mem s key h).mp hb) hmem

theorem insert_of_mem (s : List_set α) (key : α) (h : WF s)
    (hmem : key ∈ s.elements) : s.insert key = (false, s) := by
  have hm : matchesKey (find_predecessor s.link_ key) key = true :=
    (member_iff_mem s key h).mpr hmem
  simp [List_set.insert, hm]

theorem remove_of_not_mem (s : List_set α) (key : α) (h : WF s)
    (hmem : key ∉ s.elements) : s.remove key = (false, s) := by
  have hm : matchesKey (find_predecessor s.link_ key) key = false :=
    member_false_of_not_mem s key h hmem
  simp [List_set.remove, hm]

theorem insert_of_not_mem (s : List_set α) (key : α) (h : WF s)
    (hmem : key ∉ s.elements) :
    (s.insert key).1 = true ∧
    (s.insert key).2.link_ =
      insertAt s.link_ (find_predecessor_steps s.link_ key) key ∧
    (s.insert key).2.elements =
      s.elements.take (find_predecessor_steps s.link_ key) ++
        key :: s.elements.drop (find_predecessor_steps s.link_ key) ∧
    WF (s.insert key).2 := by
  obtain ⟨e, n, hc, he, hs⟩ := WF_dest s h
  have hkn : key ∉ n.elems := he ▸ hmem
  have hm : matchesKey (find_predecessor s.link_ key) key = false :=
    member_false_of_not_mem s key h hmem
  have hstep : find_predecessor_steps s.link_ key = stepsIn n.elems key := by
    rw [hc, find_predecessor_steps_eq]
  have hins : s.insert key =
      (true, ⟨insertAt s.link_ (find_predecessor_steps s.link_ key) key⟩) := by
    simp [List_set.insert, hm]
  rw [hins]
  refine ⟨rfl, rfl, ?_, ?_, ?_⟩
  · rw [hstep, hc, he]
    exact elements_insertAt e n _ key (stepsIn_le n.elems key)
  · show (insertAt s.link_ (find_predecessor_steps s.link_ key) key).is_last
      = false
    rw [hc]
    exact insertAt_not_last e n _ key
  · show List.Sorted (· < ·)
      (List_set.elements ⟨insertAt s.link_ (find_predecessor_steps s.link_ key) key⟩)
    rw [hstep, hc,
      elements_insertAt e n _ key (stepsIn_le n.elems key)]
    exact sorted_splice n.elems key hs hkn

theorem remove_of_mem (s : List_set α) (key : α) (h : WF s)
    (hmem : key ∈ s.elements) :
    (s.remove key).1 = true ∧
    (s.remove key).2.link_ =
      removeAt s.link_ (find_predecessor_steps s.link_ key) ∧
    (s.remove key).2.elements =
      s.elements.take (find_predecessor_steps s.link_ key) ++
        s.elements.drop (find_predecessor_steps s.link_ key + 1) ∧
    WF (s.remove key).2 ∧
    (∀ x, x ∈ (s.remove key).2.elements ↔ x ∈ s.elements ∧ x ≠ key) := by
  obtain ⟨e, n, hc, he, hs⟩ := WF_dest s h
  have hkn : key ∈ n.elems := he ▸ hmem
  have hget : n.elems[stepsIn n.elems key]? = some key :=
    (getElem?_stepsIn_iff_mem n.elems key hs).mpr hkn
  have hlt : stepsIn n.elems key < n.elems.length := by
    by_contra hh
    push_neg at hh
    rw [List.getElem?_eq_none hh] at hget
    cases hget
  have hm : matchesKey (find_predecessor s.link_ key) key = true :=
    (member_iff_mem s key h).mpr hmem
  have hstep : find_predecessor_steps s.link_ key = stepsIn n.elems key := by
    rw [hc, find_predecessor_steps_eq]
  have hrem : s.remove key =
      (true, ⟨removeAt s.link_ (find_predecessor_steps s.link_ key)⟩) := by
    simp [List_set.remove, hm]
  rw [hrem]
  have helems : List_set.elements
        ⟨removeAt s.link_ (find_predecessor_steps s.link_ key)⟩ =
      n.elems.take (stepsIn n.elems key) ++
        n.elems.drop (stepsIn n.elems key + 1) := by
    rw [hstep, hc]
    exact elements_removeAt e n _ hlt
  refine ⟨rfl, rfl, ?_, ⟨?_, ?_⟩, ?_⟩
  · rw [helems, hstep, he]
  · show (removeAt s.link_ (find_predecessor_steps s.link_ key)).is_last = false
    rw [hc]
    exact removeAt_not_last e n _
  · show List.Sorted (· < ·) (List_set.elements
      ⟨removeAt s.link_ (find_predecessor_steps s.link_ key)⟩)
    rw [helems]
    exact sorted_unsplice n.elems _ hs
  · intro x
    rw [helems, he]
    exact mem_unsplice n.elems key hs _ x hget

theorem find_predecessor_node (e : α) (n : Chain α) (key : α) :
    ∃ e2 m, find_predecessor (Chain.node e n) key = Chain.node e2 m := by
  induction n generalizing e with
  | tl => exact ⟨e, Chain.tl, rfl⟩
  | node e2 n2 ih =>
    by_cases h : key ≤ e2
    · exact ⟨e, Chain.node e2 n2, by simp [find_predecessor, h]⟩
    · obtain ⟨e3, m, hm⟩ := ih e2
      exact ⟨e3, m, by simp [find_predecessor, h, hm]⟩

/-! The claims. -/

/-- C1: the well-formedness invariant of the sequential `List_set`
(strictly ascending interior chain from the head sentinel to the tail
sentinel — with acyclicity and node distinctness structural in the
unique-ownership embedding, and element distinctness recorded as
`Nodup`) is preserved by `insert` and by `remove` on any well-formed
state; `member` returns only a boolean and leaves the state untouched
by its type, so the invariant trivially survives it. -/
theorem sequential_invariant_preserved (s : List_set α) (key : α)
    (h : WF s) :
    WF (s.insert key).2 ∧ WF (s.remove key).2 ∧
    (s.insert key).2.elements.Nodup ∧ (s.remove key).2.elements.Nodup := by
  have hwfi : WF (s.insert key).2 := by
    by_cases hm : key ∈ s.elements
    · rw [insert_of_mem s key h hm]; exact h
    · exact (insert_of_not_mem s key h hm).2.2.2
  have hwfr : WF (s.remove key).2 := by
    by_cases hm : key ∈ s.elements
    · exact (remove_of_mem s key h hm).2.2.2.1
    · rw [remove_of_not_mem s key h hm]; exact h
  exact ⟨hwfi, hwfr, hwfi.2.nodup, hwfr.2.nodup⟩

/-- Witness for C1 at the concrete state `sample` and key 3. -/
theorem sequential_invariant_preserved_witness :
    WF sample ∧
      (WF (sample.insert 3).2 ∧ WF (sample.remove 3).2 ∧
        (sample.insert 3).2.elements.Nodup ∧
        (sample.remove 3).2.elements.Nodup) :=
  ⟨by decide, sequential_invariant_preserved sample 3 (by decide)⟩

/-- C2: on a well-formed state, `member key` is true exactly when the
successor of `find_predecessor key` exists (is not the tail sentinel)
and holds `key` — the `matches` test — and, equivalently, exactly when
`key` is an element of the set. -/
theorem member_correct (s : List_set α) (key : α) (h : WF s) :
    s.member key = matchesKey (find_predecessor s.link_ key) key ∧
    (s.member key = true ↔ key ∈ s.elements) :=
  ⟨rfl, member_iff_mem s key h⟩

/-- Witness for C2 at the concrete state `sample` and key 5. -/
theorem member_correct_witness :
    WF sample ∧
      (sample.member 5 = matchesKey (find_predecessor sample.link_ 5) 5 ∧
        (sample.member 5 = true ↔ (5 : Int) ∈ sample.elements)) :=
  ⟨by decide, member_correct sample 5 (by decide)⟩

/-- C3: on a well-formed state, `insert key` returns false and leaves
the state unchanged when `key` is present; otherwise it returns true,
the new chain is exactly the old one with a node holding `key` spliced
between the predecessor found by the traversal and that predecessor's
successor, and afterwards the elements are the old ones united with
`{key}`. -/
theorem insert_correct (s : List_set α) (key : α) (h : WF s) :
    (key ∈ s.elements → s.insert key = (false, s)) ∧
    (key ∉ s.elements →
      (s.insert key).1 = true ∧
      (s.insert key).2.link_ =
        insertAt s.link_ (find_predecessor_steps s.link_ key) key ∧
      ∀ x, x ∈ (s.insert key).2.elements ↔ x ∈ s.elements ∨ x = key) := by
  refine ⟨insert_of_mem s key h, fun hm => ?_⟩
  obtain ⟨h1, h2, h3, h4⟩ := insert_of_not_mem s key h hm
  refine ⟨h1, h2, fun x => ?_⟩
  rw [h3, mem_splice]
  tauto

/-- Witness for C3 at the concrete state `sample` and key 3. -/
theorem insert_correct_witness :
    WF sample ∧
      (((3 : Int) ∈ sample.elements → sample.insert 3 = (false, sample)) ∧
        ((3 : Int) ∉ sample.elements →
          (sample.insert 3).1 = true ∧
          (sample.insert 3).2.link_ =
            insertAt sample.link_ (find_predecessor_steps sample.link_ 3) 3 ∧
          ∀ x, x ∈ (sample.insert 3).2.elements ↔
            x ∈ sample.elements ∨ x = 3)) :=
  ⟨by decide, insert_correct sample 3 (by decide)⟩

/-- C4: on a well-formed state, `remove key` returns false and leaves
the state unchanged when `key` is absent; otherwise it returns true,
the new chain is exactly the old one with the predecessor's successor
unlinked (its former `next` link transferred to the predecessor), and
afterwards the elements are the old ones minus `{key}`. -/
theorem remove_correct (s : List_set α) (key : α) (h : WF s) :
    (key ∉ s.elements → s.remove key = (false, s)) ∧
    (key ∈ s.elements →
      (s.remove key).1 = true ∧
      (s.remove key).2.link_ =
        removeAt s.link_ (find_predecessor_steps s.link_ key) ∧
      ∀ x, x ∈ (s.remove key).2.elements ↔ x ∈ s.elements ∧ x ≠ key) := by
  refine ⟨remove_of_not_mem s key h, fun hm => ?_⟩
  obtain ⟨h1, h2, h3, h4, h5⟩ := remove_of_mem s key h hm
  exact ⟨h1, h2, h5⟩

/-- Witness for C4 at the concrete state `sample` and key 2. -/
theorem remove_correct_witness :
    WF sample ∧
      (((2 : Int) ∉ sample.elements → sample.remove 2 = (false, sample)) ∧
        ((2 : Int) ∈ sample.elements →
          (sample.remove 2).1 = true ∧
          (sample.remove 2).2.link_ =
            removeAt sample.link_ (find_predecessor_steps sample.link_ 2) ∧
          ∀ x, x ∈ (sample.remove 2).2.elements ↔
            x ∈ sample.elements ∧ x ≠ 2)) :=
  ⟨by decide, remove_correct sample 2 (by decide)⟩

/-- C5: on a well-formed state, `find_predecessor key` returns the node
reached after exactly `find_predecessor_steps` advancement steps from
the head; that count never exceeds the number of interior nodes, every
interior node passed (strictly between the head sentinel and the
result, inclusive of the result) holds an element `< key`, and the
result's successor, when it is not the tail sentinel, is the first
node whose element is `≥ key`. -/
theorem find_predecessor_correct (s : List_set α) (key : α) (h : WF s) :
    find_predecessor s.link_ key =
      advance s.link_ (find_predecessor_steps s.link_ key) ∧
    find_predecessor_steps s.link_ key ≤ s.elements.length ∧
    (∀ j, j < find_predecessor_steps s.link_ key →
      ∃ v, s.elements[j]? = some v ∧ v < key) ∧
    (∀ v, s.elements[find_predecessor_steps s.link_ key]? = some v →
      key ≤ v) := by
  obtain ⟨e, n, hc, he, hs⟩ := WF_dest s h
  refine ⟨find_predecessor_eq_advance s.link_ key, ?_, ?_, ?_⟩
  · rw [hc, find_predecessor_steps_eq, he]
    exact stepsIn_le n.elems key
  · rw [hc, find_predecessor_steps_eq, he]
    exact stepsIn_prefix_lt n.elems key
  · rw [hc, find_predecessor_steps_eq, he]
    exact stepsIn_at_ge n.elems key

/-- Witness for C5 at the concrete state `sample` and key 3. -/
theorem find_predecessor_correct_witness :
    WF sample ∧
      (find_predecessor sample.link_ 3 =
        advance sample.link_ (find_predecessor_steps sample.link_ 3) ∧
      find_predecessor_steps sample.link_ 3 ≤ sample.elements.length ∧
      (∀ j, j < find_predecessor_steps sample.link_ 3 →
        ∃ v, sample.elements[j]? = some v ∧ v < 3) ∧
      (∀ v, sample.elements[find_predecessor_steps sample.link_ 3]? = some v →
        (3 : Int) ≤ v)) :=
  ⟨by decide, find_predecessor_correct sample 3 (by decide)⟩

/-- C6: single-thread round trips on an arbitrary well-formed state:
after `insert 5`, `member 5` is true; after `remove 5`, `member 5` is
false and a second `remove 5` returns false; and when 5 is initially
absent, two consecutive `insert 5` calls return true then false. -/
theorem single_thread_round_trips (s : List_set Int) (h : WF s) :
    (s.insert 5).2.member 5 = true ∧
    (s.remove 5).2.member 5 = false ∧
    ((s.remove 5).2.remove 5).1 = false ∧
    ((5 : Int) ∉ s.elements →
      (s.insert 5).1 = true ∧ ((s.insert 5).2.insert 5).1 = false) := by
  refine ⟨?_, ?_, ?_, ?_⟩
  · by_cases hm : (5 : Int) ∈ s.elements
    · rw [insert_of_mem s 5 h hm]
      exact (member_iff_mem s 5 h).mpr hm
    · obtain ⟨h1, h2, h3, h4⟩ := insert_of_not_mem s 5 h hm
      refine (member_iff_mem _ 5 h4).mpr ?_
      rw [h3, mem_splice]
      exact Or.inl rfl
  · by_cases hm : (5 : Int) ∈ s.elements
    · obtain ⟨h1, h2, h3, h4, h5⟩ := remove_of_mem s 5 h hm
      exact member_false_of_not_mem _ 5 h4 fun hx => ((h5 5).mp hx).2 rfl
    · rw [remove_of_not_mem s 5 h hm]
      exact member_false_of_not_mem s 5 h hm
  · by_cases hm : (5 : Int) ∈ s.elements
    · obtain ⟨h1, h2, h3, h4, h5⟩ := remove_of_mem s 5 h hm
      have hnot : (5 : Int) ∉ (s.remove 5).2.elements :=
        fun hx => ((h5 5).mp hx).2 rfl
      rw [remove_of_not_mem _ 5 h4 hnot]
    · have hr := remove_of_not_mem s 5 h hm
      rw [hr]
      show (s.remove 5).1 = false
      rw [hr]
  · intro hm
    obtain ⟨h1, h2, h3, h4⟩ := insert_of_not_mem s 5 h hm
    have hmem2 : (5 : Int) ∈ (s.insert 5).2.elements := by
      rw [h3, mem_splice]
      exact Or.inl rfl
    rw [insert_of_mem _ 5 h4 hmem2]
    exact ⟨h1, rfl⟩

/-- Witness for C6 at the concrete state `sample`. -/
theorem single_thread_round_trips_witness :
    WF sample ∧
      ((sample.insert 5).2.member 5 = true ∧
        (sample.remove 5).2.member 5 = false ∧
        ((sample.remove 5).2.remove 5).1 = false ∧
        ((5 : Int) ∉ sample.elements →
          (sample.insert 5).1 = true ∧
          ((sample.insert 5).2.insert 5).1 = false)) :=
  ⟨by decide, single_thread_round_trips sample (by decide)⟩

/-- C7: a freshly constructed `List_set` has its head sentinel linked
directly to the tail sentinel, holds no elements, and `member` returns
false for every key. -/
theorem new_set_is_empty [Inhabited α] :
    (List_set.new : List_set α).link_ = Chain.node default Chain.tl ∧
    (List_set.new : List_set α).elements = [] ∧
    ∀ key : α, (List_set.new : List_set α).member key = false :=
  ⟨rfl, rfl, fun _ => rfl⟩

/-- C8: the traversal of `find_predecessor` performs at most as many
advancement steps as there are interior nodes, so on a finite chain it
stops no later than the node whose successor is the tail sentinel
(termination itself is structural: `find_predecessor` is defined by
recursion on the finite chain). -/
theorem find_predecessor_terminates (e : α) (n : Chain α) (key : α) :
    find_predecessor_steps (Chain.node e n) key ≤ n.elems.length := by
  rw [find_predecessor_steps_eq]
  exact stepsIn_le n.elems key

/-- C9: whenever the head link is a proper node (as the constructor and
every operation guarantee), `find_predecessor` never returns the tail
sentinel: its result is a node with a non-null `next` link, so the
`prev.next` dereferences in `matches`, `insert` and `remove` never
dereference a null pointer. -/
theorem find_predecessor_never_tail (s : List_set α) (key : α)
    (h : s.link_.is_last = false) :
    ∃ e2 m, find_predecessor s.link_ key = Chain.node e2 m := by
  cases hc : s.link_ with
  | tl => rw [hc] at h; simp [Chain.is_last] at h
  | node e n => exact find_predecessor_node e n key

/-- Witness for C9 at the concrete state `sample` and key 7. -/
theorem find_predecessor_never_tail_witness :
    sample.link_.is_last = false ∧
      ∃ e2 m, find_predecessor sample.link_ 7 = Chain.node e2 m :=
  ⟨by decide, find_predecessor_never_tail sample 7 (by decide)⟩

end ListSets
